import Mathlib

/-!
Verification development for the `oc` commit-composition tool.

The definitions below are shallow embeddings of the TypeScript source:
pure computations become Lean functions, the git staging index and
commit history become an explicit state record threaded through an
operation list, and JavaScript `Map` objects become association lists
that preserve insertion order (matching `Map` iteration semantics).
String functions are implemented structurally over the character list
of a `String` so that every definition evaluates by kernel reduction.
-/

namespace Ocmt

/-! ## String helpers (structural, kernel-reducible)

`String.splitOn`, `trim`, `startsWith` and `toNat?` from core use
position-based recursion that does not reduce well inside `decide`
proofs, so we re-implement the small fragments the source needs
directly on `String.data`. -/

/-- Split a character list at every occurrence of `sep`
(mirrors JavaScript `String.prototype.split` with a single-character
separator: n separators yield n+1 pieces, empty pieces included). -/
def splitOnChar (sep : Char) : List Char → List (List Char)
  | [] => [[]]
  | c :: rest =>
    let r := splitOnChar sep rest
    if c = sep then [] :: r
    else
      match r with
      | h :: t => (c :: h) :: t
      | [] => [[c]]

/-- Split a string at every occurrence of the character `sep`. -/
def strSplit (s : String) (sep : Char) : List String :=
  (splitOnChar sep s.data).map (fun l => ⟨l⟩)

/-- `p` is a prefix of `s` (mirrors JavaScript `String.prototype.startsWith`). -/
def strStartsWith (s p : String) : Bool :=
  p.data.isPrefixOf s.data

/-- Whitespace characters recognised by JavaScript `String.prototype.trim`
and by the regular-expression class `\s` (ASCII fragment; the source is
only ever run on ASCII diff text). -/
def jsWhitespace (c : Char) : Bool :=
  c = ' ' || c = '\t' || c = '\n' || c = '\r' || c = '\x0b' || c = '\x0c'

/-- Mirrors JavaScript `String.prototype.trim`. -/
def strTrim (s : String) : String :=
  ⟨((s.data.dropWhile jsWhitespace).reverse.dropWhile jsWhitespace).reverse⟩

/-- Decimal digit value of a character, if it is a digit. -/
def charDigit (c : Char) : Option Nat :=
  if '0' ≤ c ∧ c ≤ '9' then some (c.toNat - '0'.toNat) else none

/-- Parse a non-empty all-digit character list as a natural number
(the fragment of JavaScript `parseInt(s, 10)` exercised by well-formed
`git diff --numstat` output). -/
def digitsToNat : List Char → Option Nat
  | [] => none
  | l => l.foldl (fun acc c => acc.bind (fun n => (charDigit c).map (fun d => n * 10 + d)))
      (some 0)

/-- Parse a string as a natural number (digits only). -/
def strToNat (s : String) : Option Nat := digitsToNat s.data

/-- Join a list of strings with newline separators
(mirrors `Array.prototype.join("\n")`). -/
def joinLines (ls : List String) : String :=
  ⟨List.intercalate ['\n'] (ls.map String.data)⟩

/-! ## Data model

`FileStats` / `FileChange` / `DraftCommit` are the records declared in
`src/commands/changelog.ts` and `src/types/composer.ts`. -/

/-- Per-file change classification (`FileStats["status"]`). -/
inductive FileStatus where
  | added
  | modified
  | deleted
  | renamed
  deriving DecidableEq, Repr

/-- `FileStats` from `src/commands/changelog.ts`. -/
structure FileStats where
  path : String
  additions : Nat
  deletions : Nat
  status : FileStatus
  deriving DecidableEq, Repr

/-- `FileChange` from `src/types/composer.ts`: a `FileStats` plus the
unified diff text. -/
structure FileChange where
  path : String
  additions : Nat
  deletions : Nat
  status : FileStatus
  diff : String
  deriving DecidableEq, Repr

/-- `DraftCommit` from `src/types/composer.ts`. -/
structure DraftCommit where
  id : String
  message : String
  files : List FileChange
  deriving DecidableEq, Repr

/-- One draft as returned by the generation collaborator
(`ComposerDraftOutput` in `src/lib/opencode.ts`): file references are
bare paths, not `FileChange` records. -/
structure ComposerDraftOutput where
  id : String
  message : String
  files : List String
  deriving DecidableEq, Repr

/-! ## Association-list model of JavaScript `Map`

JavaScript `Map` iterates in insertion order and `set` on an existing
key overwrites in place, so a `Map` is embedded as a `List (key × value)`
whose first entry for a key is the authoritative one. -/

/-- `Map.get` (first entry wins, as in a key-unique JavaScript `Map`). -/
def mapGet {α : Type} : List (String × α) → String → Option α
  | [], _ => none
  | e :: rest, k => if e.1 == k then some e.2 else mapGet rest k

/-- `Map.set`: overwrite the entry in place when the key is present,
otherwise append at the end (insertion order). -/
def mapSet {α : Type} (m : List (String × α)) (k : String) (v : α) :
    List (String × α) :=
  if m.any (fun e => e.1 == k) then
    m.map (fun e => if e.1 == k then (k, v) else e)
  else m ++ [(k, v)]

/-- Mutate the value stored under key `k` in place (models field
assignment on the object reference returned by `Map.get`). -/
def mapUpdateAt {α : Type} (m : List (String × α)) (k : String) (f : α → α) :
    List (String × α) :=
  m.map (fun e => if e.1 == k then (e.1, f e.2) else e)

/-- `Map.values()` in insertion order. -/
def mapValues {α : Type} (m : List (String × α)) : List α := m.map (·.2)

/-! ## C10: `toDraftCommit` (compose command) -/

/-- `toDraftCommit` from the compose command: resolve each path the
collaborator referenced through the shared path→`FileChange` map and
silently drop paths the map does not contain. -/
def toDraftCommit (aiDraft : ComposerDraftOutput)
    (allFiles : List (String × FileChange)) : DraftCommit :=
  { id := aiDraft.id
    message := aiDraft.message
    files := (aiDraft.files.map (fun path => mapGet allFiles path)).reduceOption }

/-! ## C8: model-selection precedence (`resolveModelConfig`) -/

/-- `ModelSelection` from the model-configuration module. -/
structure ModelSelection where
  provider : String
  model : String
  deriving DecidableEq, Repr

/-- `ModelConfig` (all fields optional) as read from a `models.json`
file or built from CLI flags; a missing or unreadable file is the
empty configuration. -/
structure ModelConfig where
  commit : Option ModelSelection
  changelog : Option ModelSelection
  composer : Option ModelSelection
  deriving DecidableEq, Repr

/-- `Required<ModelConfig>`: every task type carries a selection. -/
structure ResolvedModelConfig where
  commit : ModelSelection
  changelog : ModelSelection
  composer : ModelSelection
  deriving DecidableEq, Repr

/-- `DEFAULT_MODELS` from the model-configuration module. -/
def DEFAULT_MODELS : ResolvedModelConfig :=
  { commit := ⟨"opencode", "gpt-5-nano"⟩
    changelog := ⟨"opencode", "claude-sonnet-4-5"⟩
    composer := ⟨"opencode", "claude-sonnet-4-5"⟩ }

/-- One override pass of `resolveModelConfig`: for each task type,
`if (src.field) config.field = src.field`. -/
def overrideWith (base : ResolvedModelConfig) (src : ModelConfig) : ResolvedModelConfig :=
  { commit := src.commit.getD base.commit
    changelog := src.changelog.getD base.changelog
    composer := src.composer.getD base.composer }

/-- `resolveModelConfig`: start from the defaults, then apply the
user-global file, the repository file (the empty configuration when
the repository root cannot be resolved or the file is unreadable), and
finally the explicit flag overrides. -/
def resolveModelConfig (globalConfig repoConfig flags : ModelConfig) : ResolvedModelConfig :=
  overrideWith (overrideWith (overrideWith DEFAULT_MODELS globalConfig) repoConfig) flags

/-- Specification-side selector: the first selection in precedence
order flags > repository > global, falling back to the built-in
default when no source specifies the task type. -/
def firstSelection (flagsSel repoSel globalSel : Option ModelSelection)
    (dflt : ModelSelection) : ModelSelection :=
  ((flagsSel.orElse fun _ => repoSel).orElse fun _ => globalSel).getD dflt

/-! ## Sequential Applier (C2, C3)

`applyDraft` issues three git operations per draft: unstage everything,
stage exactly the draft's paths, commit.  The observable git state is
the staging index (the set of paths with staged changes) and the
append-only commit history.  `git commit` always commits the entire
current index and leaves no staged changes behind, which is why the
per-draft clearing is load-bearing. -/

/-- Observable repository state for the applier. -/
structure GitState where
  index : List String
  history : List (String × List String)
  deriving DecidableEq, Repr

/-- The three git mutations `applyDraft` uses. -/
inductive GitOp where
  | unstageAll
  | stageFiles (paths : List String)
  | commitOp (message : String)
  deriving DecidableEq, Repr

/-- Effect of one operation: `unstageAll` (`git reset HEAD`) empties the
staged set, `stageFiles` (`git add paths...`) adds the paths, and
`commitOp` (`git commit -m`) appends `(message, staged set)` to the
history and leaves the staged set empty. -/
def execOp (st : GitState) : GitOp → GitState
  | .unstageAll => { st with index := [] }
  | .stageFiles ps =>
      { st with index := st.index ++ ps.filter (fun p => !(st.index.contains p)) }
  | .commitOp m => { index := [], history := st.history ++ [(m, st.index)] }

/-- The paths referenced by a draft (`draft.files.map((f) => f.path)`). -/
def pathsOf (d : DraftCommit) : List String := d.files.map (·.path)

/-- `applyDraft`: unstage everything, stage only this draft's files,
commit with the draft's message. -/
def applyDraftOps (d : DraftCommit) : List GitOp :=
  [.unstageAll, .stageFiles (pathsOf d), .commitOp d.message]

/-- `applyAllDrafts` (success path): the drafts' operations in order. -/
def applyAllOps (ds : List DraftCommit) : List GitOp :=
  (ds.map applyDraftOps).flatten

/-- Run a list of operations. -/
def runOps (st : GitState) (ops : List GitOp) : GitState := ops.foldl execOp st

/-- Every state reached strictly after the start of an operation list
(the intermediate and final states, the initial state excluded). -/
def statesAfter (st : GitState) : List GitOp → List GitState
  | [] => []
  | op :: ops => execOp st op :: statesAfter (execOp st op) ops

/-- Outcome of one run of the Sequential Applier with a fallible
commit primitive. `committed` counts the drafts whose commits were
created (the per-draft success messages logged before any failure);
`failedAt` is the 0-based position of the draft whose commit failed,
if any. -/
structure ApplyResult where
  state : GitState
  committed : Nat
  failedAt : Option Nat
  deriving DecidableEq, Repr

/-- The `applyAllDrafts` loop with a fallible commit primitive:
`fails i` says `git commit` exits non-zero for the draft at 0-based
position `i`. For each draft the loop unstages everything and stages
the draft's paths (these plumbing calls do not fail), then attempts
the commit; on failure the source throws immediately, so no later
draft is attempted and the history keeps the commits already made. -/
def runApplyLoop (fails : Nat → Bool) : Nat → GitState → List DraftCommit → ApplyResult
  | i, st, [] => ⟨st, i, none⟩
  | i, st, d :: rest =>
    let st1 := execOp (execOp st .unstageAll) (.stageFiles (pathsOf d))
    if fails i then ⟨st1, i, some i⟩
    else runApplyLoop fails (i + 1) (execOp st1 (.commitOp d.message)) rest

/-- `applyAllDrafts` entry point. -/
def applyAllDraftsRun (fails : Nat → Bool) (init : GitState)
    (ds : List DraftCommit) : ApplyResult :=
  runApplyLoop fails 0 init ds

/-- Concrete change touching only `x` (for witnesses). -/
def fileX : FileChange := ⟨"x", 1, 0, .modified, "dx"⟩

/-- Concrete change touching only `y` (for witnesses). -/
def fileY : FileChange := ⟨"y", 2, 1, .modified, "dy"⟩

/-- Concrete change touching only `z` (for witnesses). -/
def fileZ : FileChange := ⟨"z", 3, 2, .modified, "dz"⟩

/-- Concrete draft committing `x` (for witnesses). -/
def draftX : DraftCommit := ⟨"1", "m1", [fileX]⟩

/-- Concrete draft committing `y` (for witnesses). -/
def draftY : DraftCommit := ⟨"2", "m2", [fileY]⟩

/-- Concrete draft committing `z` (for witnesses). -/
def draftZ : DraftCommit := ⟨"3", "m3", [fileZ]⟩

/-! ## C1: coverage repair in `analyzeChangesForComposer`

After parsing the collaborator reply, the Proposal Synthesizer collects
the set of paths referenced by the reply's drafts (computed once), then
walks the set of input paths and adds every unreferenced one: appended
to the reply's last draft, or placed in a synthesized fallback draft
when the reply contained zero drafts. -/

/-- The fallback draft synthesized for a reply with zero drafts. -/
def fallbackDraft (file : String) : ComposerDraftOutput :=
  ⟨"1", "chore: miscellaneous changes", [file]⟩

/-- All file paths referenced by a list of collaborator drafts
(`drafts.flatMap((d) => d.files)`). -/
def draftFiles (drafts : List ComposerDraftOutput) : List String :=
  (drafts.map (·.files)).flatten

/-- `parsed.drafts[parsed.drafts.length - 1].files.push(file)`:
append a path to the last draft's files. -/
def pushToLast : List ComposerDraftOutput → String → List ComposerDraftOutput
  | [], _ => []
  | [d], f => [{ d with files := d.files ++ [f] }]
  | d :: rest, f => d :: pushToLast rest f

/-- One iteration of the repair loop: skip paths the original reply
already references (`allFilesInDrafts`, computed once and passed in as
`referenced`), otherwise append to the last draft or synthesize the
fallback draft when there are no drafts. -/
def repairStep (referenced : List String) (drafts : List ComposerDraftOutput)
    (file : String) : List ComposerDraftOutput :=
  if referenced.contains file then drafts
  else
    match drafts with
    | [] => [fallbackDraft file]
    | _ => pushToLast drafts file

/-- One insertion into a JavaScript `Set` built from a list. -/
def dedupStep (acc : List String) (x : String) : List String :=
  if acc.contains x then acc else acc ++ [x]

/-- `new Set(list)` iterated in insertion order: first occurrences, in
order, without duplicates. -/
def insertionDedup (l : List String) : List String :=
  l.foldl dedupStep []

/-- The validation-and-repair step of `analyzeChangesForComposer`:
every input path not referenced by any draft of the (already accepted)
reply is added, in input order. -/
def repairDrafts (inputPaths : List String) (drafts : List ComposerDraftOutput) :
    List ComposerDraftOutput :=
  (insertionDedup inputPaths).foldl (repairStep (draftFiles drafts)) drafts

/-! ## C4: Change Extractor (`getChangedFilesWithStats`) -/

/-- A numstat numeric field: `-` denotes a binary file and is treated
as `0`; otherwise the field is a decimal count (well-formed numstat
output carries only digits here). -/
def parseNumstatField (s : String) : Nat :=
  if s = "-" then 0 else (strToNat s).getD 0

/-- Process one `git diff --numstat` line
(`additions TAB deletions TAB path`): record the numeric counts under
the path, defaulting the status to `modified`. -/
def processNumstatLine (m : List (String × FileStats)) (line : String) :
    List (String × FileStats) :=
  let parts := strSplit line '\t'
  if parts.length ≥ 3 then
    let additions := parseNumstatField (parts.getD 0 "")
    let deletions := parseNumstatField (parts.getD 1 "")
    let path := parts.getD 2 ""
    mapSet m path ⟨path, additions, deletions, .modified⟩
  else m

/-- Status character of a name-status line (`A`, `D`, `R`, anything
else defaults to `modified`). -/
def statusFromChar (c : Char) : FileStatus :=
  if c = 'A' then .added
  else if c = 'D' then .deleted
  else if c = 'R' then .renamed
  else .modified

/-- Merge one classification entry into the numeric map: update the
entry found by new path, or — if absent — by old path (covering a
numeric entry recorded under the pre-rename path), or create a new
zero-stat entry when no numeric data exists for either path.  The
update mutates the stored record in place (status and path overwritten,
numeric counts kept), exactly as the source mutates the object returned
by `Map.get`. -/
def applyStatusEntry (m : List (String × FileStats)) (status : FileStatus)
    (path : String) (oldPath : Option String) : List (String × FileStats) :=
  match mapGet m path with
  | some _ => mapUpdateAt m path (fun st => { st with status := status, path := path })
  | none =>
    match mapGet m (oldPath.getD "") with
    | some _ =>
        mapUpdateAt m (oldPath.getD "")
          (fun st => { st with status := status, path := path })
    | none => mapSet m path ⟨path, 0, 0, status⟩

/-- Process one `git diff --name-status` line
(`STATUS TAB path`, or `STATUS TAB oldPath TAB newPath` for renames). -/
def processNameStatusLine (m : List (String × FileStats)) (line : String) :
    List (String × FileStats) :=
  let parts := strSplit line '\t'
  if parts.length ≥ 2 then
    let statusChar := (parts.getD 0 "").data.headD ' '
    let path := if parts.length = 3 then parts.getD 2 "" else parts.getD 1 ""
    let oldPath := if parts.length = 3 then some (parts.getD 1 "") else none
    applyStatusEntry m (statusFromChar statusChar) path oldPath
  else m

/-- Lines of a raw git output (`.split("\n").filter(Boolean)`). -/
def outputLines (s : String) : List String :=
  (strSplit s '\n').filter (fun l => !(l == ""))

/-- `getChangedFilesWithStats`: parse the numstat query first, then
merge in the name-status classification, and return the records in
insertion order. -/
def getChangedFilesWithStats (numstatOutput nameStatusOutput : String) :
    List FileStats :=
  if numstatOutput = "" ∧ nameStatusOutput = "" then []
  else
    let m := (outputLines numstatOutput).foldl processNumstatLine []
    let m2 := (outputLines nameStatusOutput).foldl processNameStatusLine m
    mapValues m2

/-! ## C5: pseudo-diff for untracked files -/

/-- The lines of the pseudo-diff synthesized for an untracked file with
the given content: four header lines, the hunk header, then one
`+`-prefixed line per content line. -/
def createDiffForUntrackedLines (filePath content : String) : List String :=
  let lines := strSplit content '\n'
  ["diff --git a/" ++ filePath ++ " b/" ++ filePath,
   "new file mode 100644",
   "--- /dev/null",
   "+++ b/" ++ filePath,
   "@@ -0,0 +1," ++ toString lines.length ++ " @@"] ++
  lines.map (fun line => "+" ++ line)

/-- `createDiffForUntracked`: empty content (or an unreadable file)
yields the empty string; otherwise the pseudo-diff lines joined with
newlines. -/
def createDiffForUntracked (filePath content : String) : String :=
  if content = "" then ""
  else joinLines (createDiffForUntrackedLines filePath content)

/-- The additions count the compose command records for an untracked
file: the number of pseudo-diff lines that start with `+`
(`diff.split("\n").filter((l) => l.startsWith("+")).length`). -/
def untrackedAdditionsCount (diff : String) : Nat :=
  ((strSplit diff '\n').filter (fun l => strStartsWith l "+")).length

/-- The change record the compose command synthesizes for an untracked
file with pseudo-diff `diff`: additions from the `+`-line count, zero
deletions, status added. -/
def untrackedFileChange (filePath diff : String) : FileChange :=
  ⟨filePath, untrackedAdditionsCount diff, 0, .added, diff⟩

/-! ## C6: deslop patch gating (`hasValidPatch`) -/

/-- Does the regular expression `^---\s` match at the start of this
line?  The `\s` class may match the character at offset 3 inside the
line, or the newline that terminates the line (when the line is exactly
`---` and is not the last line of the text). -/
def lineDashWhitespace (isLast : Bool) (l : String) : Bool :=
  strStartsWith l "---" &&
    (match l.data.drop 3 with
     | c :: _ => jsWhitespace c
     | [] => !isLast)

/-- `/^diff --git /m` or `/^---\s/m` over the lines of the reply text,
aware of whether a newline follows each line. -/
def anyLineValidHeader : List String → Bool
  | [] => false
  | [l] => strStartsWith l "diff --git " || lineDashWhitespace true l
  | l :: rest =>
      strStartsWith l "diff --git " || lineDashWhitespace false l ||
        anyLineValidHeader rest

/-- `hasValidPatch`:
`/^diff --git /m.test(patch) || /^---\s/m.test(patch)`. -/
def hasValidPatch (patch : String) : Bool :=
  anyLineValidHeader (strSplit patch '\n')

/-- Result values of the deslop flow. -/
inductive DeslopFlowResult where
  | continueFlow
  | abortFlow
  | updated
  deriving DecidableEq, Repr

/-- The operator's decision after an applied patch is shown. -/
inductive DeslopReview where
  | accept
  | reject
  | cancel
  deriving DecidableEq, Repr

/-- Observable outcome of the patch-handling segment of the deslop
flow: whether the patch was applied to the repository, and the flow
result. -/
structure DeslopOutcome where
  applied : Bool
  result : DeslopFlowResult
  deriving DecidableEq, Repr

/-- The patch-handling segment of `maybeDeslopStagedChanges`, from the
collaborator reply onward: an empty reply or one failing the structural
check is never applied and the flow continues ("no change needed", not
an error); otherwise the patch is applied and the outcome follows the
auto-accept flag or the operator's review (reject and cancel revert the
applied patch before returning). -/
def handleDeslopReply (patch : String) (yes : Bool) (review : DeslopReview) :
    DeslopOutcome :=
  if patch ≠ "" ∧ hasValidPatch patch = true then
    if yes then ⟨true, .updated⟩
    else
      match review with
      | .accept => ⟨true, .updated⟩
      | .reject => ⟨true, .continueFlow⟩
      | .cancel => ⟨true, .abortFlow⟩
  else ⟨false, .continueFlow⟩

/-- The structural check as the claim words it: a `diff --git ` line or
a `--- ` (dash dash dash space) line at a line start. -/
def claimedHeaderCheck (patch : String) : Bool :=
  (strSplit patch '\n').any
    (fun l => strStartsWith l "diff --git " || strStartsWith l "--- ")

/-! ## C7: Reversible Patch Workflow round trip

Modelled from the spec: the patch-apply primitive itself
(`git apply --index`, optionally `--reverse`) is the version-control
collaborator's, outside this repository; §6 specifies it as an
index-aware patch apply with an optional reverse direction, and §4.5
as `apply` / `revert` over the staged state.  A patch is a list of
per-file deltas (one per file in a well-formed patch): the expected
pre-image and the post-image of the file's staged content, `none`
denoting an absent file (file creation / deletion). -/

/-- One per-file delta of a patch. -/
structure PatchEntry where
  path : String
  preContent : Option String
  postContent : Option String
  deriving DecidableEq, Repr

/-- The staged state: path → staged content, in index order. -/
abbrev StagedState := List (String × String)

/-- Write `content` for `path` into the staged state: replace the
entry in place, append a new entry when the file is absent, or remove
the entry when `content` is `none` (file deletion). -/
def setContent (st : StagedState) (p : String) : Option String → StagedState
  | some c =>
      if st.any (fun e => e.1 == p) then
        st.map (fun e => if e.1 == p then (p, c) else e)
      else st ++ [(p, c)]
  | none => st.filter (fun e => !(e.1 == p))

/-- Apply one patch entry: check the file's current staged content
against the expected side and rewrite it to the target side;
`--reverse` swaps the two sides. -/
def applyEntry (reverse : Bool) (st : StagedState) (e : PatchEntry) :
    Option StagedState :=
  let expected := cond reverse e.postContent e.preContent
  let target := cond reverse e.preContent e.postContent
  if mapGet st e.path = expected then some (setContent st e.path target) else none

/-- Apply a whole patch entry by entry; the application fails when any
entry's context check fails. -/
def applyPatchModel (reverse : Bool) : List PatchEntry → StagedState → Option StagedState
  | [], st => some st
  | e :: rest, st =>
    match applyEntry reverse st e with
    | some st1 => applyPatchModel reverse rest st1
    | none => none

/-! ## C9: Revision Loop edit-message operation -/

/-- `editDraftMessage`: the select prompt yields a draft index (always
in range — its options are the draft indices) or is cancelled; the
text prompt yields the entered message or is cancelled, and its
validator rejects blank messages, so a blank entry can never be
submitted — the interaction ends by cancel or by a non-blank message.
On cancel the drafts are returned unchanged; otherwise a copy of the
list with only the selected draft's message replaced. -/
def editDraftMessage : List DraftCommit → Option Nat → Option String → List DraftCommit
  | drafts, none, _ => drafts
  | drafts, some _, none => drafts
  | drafts, some i, some msg =>
    if h : i < drafts.length then
      if strTrim msg = "" then drafts
      else drafts.set i { drafts.get ⟨i, h⟩ with message := msg }
    else drafts

/-! ## Theorems -/

/-- `splitOnChar` never returns an empty list of pieces. -/
theorem splitOnChar_ne_nil (sep : Char) (l : List Char) : splitOnChar sep l ≠ [] := by
  cases l with
  | nil => simp [splitOnChar]
  | cons c rest =>
    simp only [splitOnChar]
    split
    · simp
    · split <;> simp_all

theorem mapGet_mapUpdateAt_self {α : Type} (m : List (String × α)) (k : String)
    (f : α → α) (v : α) (h : mapGet m k = some v) :
    mapGet (mapUpdateAt m k f) k = some (f v) := by
  induction m with
  | nil => simp [mapGet] at h
  | cons e rest ih =>
    by_cases hk : (e.1 == k) = true
    · simp only [mapGet, hk, if_true, Option.some.injEq] at h
      simp [mapUpdateAt, mapGet, hk, h]
    · simp only [mapGet, hk, if_false, Bool.false_eq_true, ite_false] at h
      simpa [mapUpdateAt, mapGet, hk] using ih h

theorem mapUpdateAt_length {α : Type} (m : List (String × α)) (k : String)
    (f : α → α) : (mapUpdateAt m k f).length = m.length := by
  simp [mapUpdateAt]

theorem mapGet_mem_values {α : Type} (m : List (String × α)) (k : String) (v : α)
    (h : mapGet m k = some v) : v ∈ mapValues m := by
  induction m with
  | nil => simp [mapGet] at h
  | cons e rest ih =>
    by_cases hk : (e.1 == k) = true
    · simp only [mapGet, hk, if_true, Option.some.injEq] at h
      simp [mapValues, h]
    · simp only [mapGet, hk, if_false, Bool.false_eq_true, ite_false] at h
      simp [mapValues] at ih ⊢
      exact Or.inr (ih h)

/-- C10: the compose command's `toDraftCommit` resolves each
collaborator-referenced path through the shared path→`FileChange` map
and silently drops every path the map does not contain, so every file
of every resulting `DraftCommit` comes from the input change set (the
values of the map), and a draft referencing only unknown paths becomes
an empty draft rather than an error. -/
theorem toDraftCommit_files_from_input (aiDraft : ComposerDraftOutput)
    (allFiles : List (String × FileChange)) :
    (∀ fc ∈ (toDraftCommit aiDraft allFiles).files,
        ∃ path ∈ aiDraft.files, mapGet allFiles path = some fc ∧ fc ∈ mapValues allFiles) ∧
    ((∀ path ∈ aiDraft.files, mapGet allFiles path = none) →
        (toDraftCommit aiDraft allFiles).files = []) := by
  constructor
  · intro fc hfc
    simp only [toDraftCommit, List.reduceOption_mem_iff, List.mem_map] at hfc
    obtain ⟨path, hpath, hget⟩ := hfc
    exact ⟨path, hpath, hget, mapGet_mem_values _ _ _ hget⟩
  · intro hnone
    simp only [toDraftCommit, List.reduceOption, List.filterMap_eq_nil_iff]
    intro x hx
    simp only [List.mem_map] at hx
    obtain ⟨path, hpath, hget⟩ := hx
    subst hget
    simp [hnone path hpath]

/-- Witness for C10 at a concrete input: map holds only `"a"`, the
collaborator references `"a"` and the unknown `"b"`; the file resolved
for `"a"` is a member of the input change set. -/
theorem toDraftCommit_files_from_input_witness :
    (⟨"a", 1, 0, FileStatus.modified, "d"⟩ : FileChange) ∈
      mapValues [("a", (⟨"a", 1, 0, FileStatus.modified, "d"⟩ : FileChange))] := by
  obtain ⟨p, hp, hget, hv⟩ :=
    (toDraftCommit_files_from_input ⟨"1", "m", ["a", "b"]⟩
      [("a", ⟨"a", 1, 0, FileStatus.modified, "d"⟩)]).1
      ⟨"a", 1, 0, FileStatus.modified, "d"⟩ (by decide)
  exact hv

/-- C8: for each of the three task types, `resolveModelConfig` returns
the selection of the highest-precedence source that specifies it
(flags > repository file > user-global file), and the built-in default
when no source specifies that task type. -/
theorem resolveModelConfig_precedence (globalConfig repoConfig flags : ModelConfig) :
    (resolveModelConfig globalConfig repoConfig flags).commit =
      firstSelection flags.commit repoConfig.commit globalConfig.commit
        DEFAULT_MODELS.commit ∧
    (resolveModelConfig globalConfig repoConfig flags).changelog =
      firstSelection flags.changelog repoConfig.changelog globalConfig.changelog
        DEFAULT_MODELS.changelog ∧
    (resolveModelConfig globalConfig repoConfig flags).composer =
      firstSelection flags.composer repoConfig.composer globalConfig.composer
        DEFAULT_MODELS.composer := by
  obtain ⟨gc, gl, gp⟩ := globalConfig
  obtain ⟨rc, rl, rp⟩ := repoConfig
  obtain ⟨fc, fl, fp⟩ := flags
  refine ⟨?_, ?_, ?_⟩ <;>
    simp only [resolveModelConfig, overrideWith, firstSelection] <;>
    cases fc <;> cases fl <;> cases fp <;> cases rc <;> cases rl <;> cases rp <;>
    cases gc <;> cases gl <;> cases gp <;> rfl

theorem statesAfter_append (st : GitState) (l₁ l₂ : List GitOp) :
    statesAfter st (l₁ ++ l₂) = statesAfter st l₁ ++ statesAfter (runOps st l₁) l₂ := by
  induction l₁ generalizing st with
  | nil => simp [statesAfter, runOps]
  | cons op ops ih =>
    simp only [List.cons_append, statesAfter, List.append_eq]
    rw [ih]
    rfl

theorem stage_from_empty (ps : List String) (hist : List (String × List String)) :
    execOp ⟨[], hist⟩ (.stageFiles ps) = ⟨ps, hist⟩ := by
  simp [execOp]

theorem runOps_applyDraftOps (d : DraftCommit) (init : GitState) :
    runOps init (applyDraftOps d) =
      ⟨[], init.history ++ [(d.message, pathsOf d)]⟩ := by
  simp [runOps, applyDraftOps, execOp]

theorem runOps_applyAllOps_history (ds : List DraftCommit) (init : GitState) :
    (runOps init (applyAllOps ds)).history =
      init.history ++ ds.map (fun d => (d.message, pathsOf d)) := by
  induction ds generalizing init with
  | nil => simp [applyAllOps, runOps]
  | cons d ds ih =>
    have hsplit : applyAllOps (d :: ds) = applyDraftOps d ++ applyAllOps ds := by
      simp [applyAllOps]
    rw [hsplit]
    have hrun : runOps init (applyDraftOps d ++ applyAllOps ds) =
        runOps (runOps init (applyDraftOps d)) (applyAllOps ds) := by
      simp [runOps]
    rw [hrun, runOps_applyDraftOps, ih]
    simp

theorem statesAfter_applyDraftOps (d : DraftCommit) (init : GitState) :
    statesAfter init (applyDraftOps d) =
      [⟨[], init.history⟩, ⟨pathsOf d, init.history⟩,
        ⟨[], init.history ++ [(d.message, pathsOf d)]⟩] := by
  simp [statesAfter, applyDraftOps, execOp]

theorem statesAfter_applyAllOps (ds : List DraftCommit) (init : GitState) :
    ∀ s ∈ statesAfter init (applyAllOps ds),
      s.index = [] ∨ ∃ k : Fin ds.length, s.index = pathsOf (ds.get k) := by
  induction ds generalizing init with
  | nil =>
    intro s hs
    simp [applyAllOps, statesAfter] at hs
  | cons d ds ih =>
    intro s hs
    have hsplit : applyAllOps (d :: ds) = applyDraftOps d ++ applyAllOps ds := by
      simp [applyAllOps]
    rw [hsplit, statesAfter_append] at hs
    rcases List.mem_append.mp hs with h1 | h2
    · rw [statesAfter_applyDraftOps] at h1
      simp only [List.mem_cons, List.not_mem_nil, or_false] at h1
      rcases h1 with h | h | h
      · left; rw [h]
      · right
        refine ⟨⟨0, by simp⟩, ?_⟩
        rw [h]
        rfl
      · left; rw [h]
    · rw [runOps_applyDraftOps] at h2
      rcases ih _ s h2 with h | ⟨k, hk⟩
      · left; exact h
      · right
        exact ⟨k.succ, by simpa using hk⟩

/-- C2: the Sequential Applier executes the drafts in order, and for
each draft first clears the staging index entirely, then stages exactly
that draft's file paths, then commits: the final history receives the
drafts' commits in order, every state reached between operations has as
staged set either the empty set or exactly one draft's path list, and —
when the drafts' file sets are pairwise disjoint — no reached state
stages files belonging to two different drafts simultaneously. -/
theorem applyAllDrafts_sequential (ds : List DraftCommit) (init : GitState) :
    (runOps init (applyAllOps ds)).history =
        init.history ++ ds.map (fun d => (d.message, pathsOf d)) ∧
    (∀ s ∈ statesAfter init (applyAllOps ds),
        s.index = [] ∨ ∃ k : Fin ds.length, s.index = pathsOf (ds.get k)) ∧
    (List.Pairwise (fun a b => ∀ p, p ∈ pathsOf a → p ∉ pathsOf b) ds →
      ∀ s ∈ statesAfter init (applyAllOps ds), ∀ i j : Fin ds.length,
        (∃ p ∈ s.index, p ∈ pathsOf (ds.get i)) →
        (∃ q ∈ s.index, q ∈ pathsOf (ds.get j)) → i = j) := by
  refine ⟨runOps_applyAllOps_history ds init, statesAfter_applyAllOps ds init, ?_⟩
  intro hdisj s hs i j hi hj
  obtain ⟨p, hpIdx, hpi⟩ := hi
  obtain ⟨q, hqIdx, hqj⟩ := hj
  rcases statesAfter_applyAllOps ds init s hs with hempty | ⟨k, hk⟩
  · rw [hempty] at hpIdx
    cases hpIdx
  · have hP := List.pairwise_iff_getElem.mp hdisj
    have sep : ∀ a b : Fin ds.length, a ≠ b →
        ∀ r, r ∈ pathsOf (ds.get a) → r ∉ pathsOf (ds.get b) := by
      intro a b hab r hra
      rcases Nat.lt_or_ge a.val b.val with hlt | hge
      · exact hP a.val b.val a.isLt b.isLt hlt r (by simpa using hra)
      · have hlt : b.val < a.val := by
          rcases Nat.lt_or_ge b.val a.val with h | h
          · exact h
          · exact absurd (Fin.ext (Nat.le_antisymm hge h)).symm hab
        intro hrb
        exact hP b.val a.val b.isLt a.isLt hlt r (by simpa using hrb) (by simpa using hra)
    have hki : k = i := by
      by_contra hne
      exact sep k i hne p (hk ▸ hpIdx) hpi
    have hkj : k = j := by
      by_contra hne
      exact sep k j hne q (hk ▸ hqIdx) hqj
    rw [← hki, ← hkj]

theorem runApplyLoop_fail_general (fails : Nat → Bool) (ds : List DraftCommit) :
    ∀ (i : Nat) (st : GitState) (k : Nat), k < ds.length →
      fails (i + k) = true → (∀ j, j < k → fails (i + j) = false) →
      (runApplyLoop fails i st ds).failedAt = some (i + k) ∧
      (runApplyLoop fails i st ds).committed = i + k ∧
      (runApplyLoop fails i st ds).state.history =
        st.history ++ (ds.take k).map (fun d => (d.message, pathsOf d)) ∧
      runApplyLoop fails i st ds = runApplyLoop fails i st (ds.take (k + 1)) := by
  induction ds with
  | nil =>
    intro i st k hk _ _
    exact absurd hk (by simp)
  | cons d rest ih =>
    intro i st k hk hfk hbefore
    match k with
    | 0 =>
      simp only [Nat.add_zero] at hfk
      simp [runApplyLoop, hfk, execOp]
    | k' + 1 =>
      have hf0 : fails i = false := by simpa using hbefore 0 (Nat.succ_pos k')
      have hcommit : execOp (execOp (execOp st .unstageAll)
            (.stageFiles (pathsOf d))) (.commitOp d.message) =
          ⟨[], st.history ++ [(d.message, pathsOf d)]⟩ := by
        simp [execOp]
      have hk' : k' < rest.length := by simpa using hk
      have hfk' : fails ((i + 1) + k') = true := by
        have : (i + 1) + k' = i + (k' + 1) := by omega
        rw [this]; exact hfk
      have hbefore' : ∀ j, j < k' → fails ((i + 1) + j) = false := by
        intro j hj
        have : (i + 1) + j = i + (j + 1) := by omega
        rw [this]
        exact hbefore (j + 1) (by omega)
      have hmain := ih (i + 1) ⟨[], st.history ++ [(d.message, pathsOf d)]⟩ k' hk' hfk' hbefore'
      have harith : (i + 1) + k' = i + (k' + 1) := by omega
      refine ⟨?_, ?_, ?_, ?_⟩
      · simp only [runApplyLoop, hf0, if_false, Bool.false_eq_true, ite_false, hcommit]
        rw [hmain.1, harith]
      · simp only [runApplyLoop, hf0, if_false, Bool.false_eq_true, ite_false, hcommit]
        rw [hmain.2.1, harith]
      · simp only [runApplyLoop, hf0, if_false, Bool.false_eq_true, ite_false, hcommit]
        rw [hmain.2.2.1]
        simp
      · simp only [List.take, runApplyLoop, hf0, if_false, Bool.false_eq_true,
          ite_false, hcommit]
        exact hmain.2.2.2

/-- C3: if the commit for the draft at 0-based position `k` fails
(and the commits before it succeed), the Sequential Applier attempts
no draft after `k`, leaves the `k` commits already created in the
history without rolling anything back, and reports exactly `k` of the
drafts as committed (the failing draft's position determines the
count); the whole run is indistinguishable from a run on the first
`k + 1` drafts alone. -/
theorem applyAllDrafts_partial_failure (fails : Nat → Bool) (init : GitState)
    (ds : List DraftCommit) (k : Nat) (hk : k < ds.length)
    (hfk : fails k = true) (hbefore : ∀ j, j < k → fails j = false) :
    (applyAllDraftsRun fails init ds).failedAt = some k ∧
    (applyAllDraftsRun fails init ds).committed = k ∧
    (applyAllDraftsRun fails init ds).state.history =
      init.history ++ (ds.take k).map (fun d => (d.message, pathsOf d)) ∧
    applyAllDraftsRun fails init ds = applyAllDraftsRun fails init (ds.take (k + 1)) := by
  have h := runApplyLoop_fail_general fails ds 0 init k hk (by simpa using hfk)
    (by intro j hj; simpa using hbefore j hj)
  simpa [applyAllDraftsRun] using h

/-- Witness for C2 at the spec's own example `[{files:[x]}, {files:[y]}]`:
two commits are created in order, and the state reached after staging
the first draft (index `["x"]`) stages exactly one draft's files. -/
theorem applyAllDrafts_sequential_witness :
    (runOps ⟨["x", "y"], []⟩ (applyAllOps [draftX, draftY])).history =
        [("m1", ["x"]), ("m2", ["y"])] ∧
    ((⟨["x"], []⟩ : GitState).index = [] ∨
      ∃ k : Fin 2, (⟨["x"], []⟩ : GitState).index = pathsOf ([draftX, draftY].get k)) ∧
    ((0 : Fin 2) = (0 : Fin 2)) := by
  have h := applyAllDrafts_sequential [draftX, draftY] ⟨["x", "y"], []⟩
  have hdisj : List.Pairwise (fun a b => ∀ p, p ∈ pathsOf a → p ∉ pathsOf b)
      [draftX, draftY] := by
    refine List.Pairwise.cons ?_ (List.pairwise_singleton _ _)
    intro b hb p hp
    have hb' : b = draftY := by simpa using hb
    subst hb'
    have hp' : p = "x" := by simpa [pathsOf, draftX, fileX] using hp
    subst hp'
    decide
  refine ⟨by rw [h.1]; decide, h.2.1 ⟨["x"], []⟩ (by decide), ?_⟩
  exact h.2.2 hdisj ⟨["x"], []⟩ (by decide) ⟨0, by decide⟩ ⟨0, by decide⟩
    ⟨"x", by decide, by decide⟩ ⟨"x", by decide, by decide⟩

/-- Witness for C3 at the spec's own example: commit creation fails on
draft 2 of 3 (0-based position 1); exactly 1 commit is reported and
only the first draft's commit is in the history. -/
theorem applyAllDrafts_partial_failure_witness :
    (applyAllDraftsRun (fun n => n == 1) ⟨[], []⟩ [draftX, draftY, draftZ]).committed = 1 ∧
    (applyAllDraftsRun (fun n => n == 1) ⟨[], []⟩ [draftX, draftY, draftZ]).failedAt =
      some 1 ∧
    (applyAllDraftsRun (fun n => n == 1) ⟨[], []⟩ [draftX, draftY, draftZ]).state.history =
      [("m1", ["x"])] := by
  have h := applyAllDrafts_partial_failure (fun n => n == 1) ⟨[], []⟩
    [draftX, draftY, draftZ] 1 (by decide) (by decide)
    (by
      intro j hj
      have hj0 : j = 0 := by omega
      subst hj0
      decide)
  refine ⟨h.2.1, h.1, ?_⟩
  rw [h.2.2.1]
  decide

theorem mem_dedupStep_of_mem {acc : List String} {p : String} (x : String)
    (h : p ∈ acc) : p ∈ dedupStep acc x := by
  unfold dedupStep
  split
  · exact h
  · exact List.mem_append_left _ h

theorem self_mem_dedupStep (acc : List String) (x : String) : x ∈ dedupStep acc x := by
  unfold dedupStep
  split
  · next h => exact List.mem_of_elem_eq_true h
  · exact List.mem_append_right _ (List.mem_singleton_self x)

theorem mem_dedupStep_elim {acc : List String} {p x : String}
    (h : p ∈ dedupStep acc x) : p ∈ acc ∨ p = x := by
  unfold dedupStep at h
  split at h
  · exact Or.inl h
  · rcases List.mem_append.mp h with h' | h'
    · exact Or.inl h'
    · exact Or.inr (List.mem_singleton.mp h')

theorem mem_foldl_dedupStep (l : List String) :
    ∀ (acc : List String) (p : String), p ∈ acc ∨ p ∈ l → p ∈ l.foldl dedupStep acc := by
  induction l with
  | nil =>
    intro acc p h
    simpa using h
  | cons x xs ih =>
    intro acc p h
    simp only [List.foldl_cons]
    apply ih
    rcases h with hacc | hl
    · exact Or.inl (mem_dedupStep_of_mem x hacc)
    · rcases List.mem_cons.mp hl with hpx | hxs
      · exact Or.inl (hpx ▸ self_mem_dedupStep acc x)
      · exact Or.inr hxs

theorem mem_insertionDedup_of_mem {l : List String} {p : String} (h : p ∈ l) :
    p ∈ insertionDedup l :=
  mem_foldl_dedupStep l [] p (Or.inr h)

theorem mem_of_foldl_dedupStep (l : List String) :
    ∀ (acc : List String) (p : String), p ∈ l.foldl dedupStep acc → p ∈ acc ∨ p ∈ l := by
  induction l with
  | nil =>
    intro acc p h
    exact Or.inl (by simpa using h)
  | cons x xs ih =>
    intro acc p h
    simp only [List.foldl_cons] at h
    rcases ih _ p h with hacc | hxs
    · rcases mem_dedupStep_elim hacc with h' | h'
      · exact Or.inl h'
      · exact Or.inr (h' ▸ List.mem_cons_self _ _)
    · exact Or.inr (List.mem_cons_of_mem _ hxs)

theorem draftFiles_pushToLast (f : String) :
    ∀ drafts : List ComposerDraftOutput,
      (∀ q, q ∈ draftFiles drafts → q ∈ draftFiles (pushToLast drafts f)) ∧
      (drafts ≠ [] → f ∈ draftFiles (pushToLast drafts f)) := by
  intro drafts
  induction drafts with
  | nil => simp [pushToLast, draftFiles]
  | cons d rest ih =>
    cases rest with
    | nil =>
      constructor
      · intro q hq
        simp only [draftFiles, pushToLast, List.map_cons, List.map_nil,
          List.flatten] at hq ⊢
        simp at hq ⊢
        exact Or.inl hq
      · intro _
        simp [draftFiles, pushToLast]
    | cons d' rest' =>
      constructor
      · intro q hq
        simp only [pushToLast, draftFiles, List.map_cons, List.flatten_cons,
          List.mem_append] at hq ⊢
        rcases hq with h | h
        · exact Or.inl h
        · right
          have := (ih.1) q
          simpa [draftFiles] using this (by simpa [draftFiles] using h)
      · intro _
        simp only [pushToLast, draftFiles, List.map_cons, List.flatten_cons,
          List.mem_append]
        right
        have := ih.2 (by simp)
        simpa [draftFiles] using this

theorem draftFiles_repairStep_mono (r : List String) (f : String)
    (drafts : List ComposerDraftOutput) (q : String)
    (hq : q ∈ draftFiles drafts) : q ∈ draftFiles (repairStep r drafts f) := by
  unfold repairStep
  split
  · exact hq
  · cases drafts with
    | nil => simp [draftFiles] at hq
    | cons d rest => exact (draftFiles_pushToLast f (d :: rest)).1 q hq

theorem foldl_repairStep_mono (r : List String) (l : List String) :
    ∀ (acc : List ComposerDraftOutput) (q : String),
      q ∈ draftFiles acc → q ∈ draftFiles (l.foldl (repairStep r) acc) := by
  induction l with
  | nil => intro acc q h; simpa using h
  | cons x xs ih =>
    intro acc q h
    simp only [List.foldl_cons]
    exact ih _ q (draftFiles_repairStep_mono r x acc q h)

theorem mem_foldl_repairStep (r : List String) (l : List String) :
    ∀ (acc : List ComposerDraftOutput) (p : String),
      p ∈ l → (r.contains p) = false → p ∈ draftFiles (l.foldl (repairStep r) acc) := by
  induction l with
  | nil => intro acc p h _; cases h
  | cons x xs ih =>
    intro acc p hp hr
    simp only [List.foldl_cons]
    rcases List.mem_cons.mp hp with rfl | hxs
    · apply foldl_repairStep_mono
      simp only [repairStep, hr, if_false, Bool.false_eq_true, ite_false]
      cases acc with
      | nil => simp [fallbackDraft, draftFiles]
      | cons d rest => exact (draftFiles_pushToLast p (d :: rest)).2 (by simp)
    · exact ih _ p hxs hr

theorem foldl_repairStep_nil_singleton (l : List String) :
    ∀ d : ComposerDraftOutput,
      l.foldl (repairStep []) [d] = [⟨d.id, d.message, d.files ++ l⟩] := by
  induction l with
  | nil => intro d; simp
  | cons x xs ih =>
    intro d
    simp only [List.foldl_cons, repairStep, List.contains_nil, if_false,
      Bool.false_eq_true, ite_false, pushToLast]
    rw [ih]
    simp

/-- C1 (amended): after the mandatory repair, every input path is
referenced by at least one draft of the returned DraftSet — omitted
paths are appended to the last draft, and a reply with zero drafts
yields exactly one synthesized fallback draft with the generic label
holding all the input paths.  (The union can strictly exceed the input
set when the reply references extraneous paths, and the repair does not
remove duplicates; see the counterexample.) -/
theorem repairDrafts_coverage (inputPaths : List String)
    (drafts : List ComposerDraftOutput) :
    (∀ p ∈ inputPaths, p ∈ draftFiles (repairDrafts inputPaths drafts)) ∧
    (drafts = [] → inputPaths = [] → repairDrafts inputPaths drafts = []) ∧
    (drafts = [] → inputPaths ≠ [] →
      ∃ files, repairDrafts inputPaths drafts =
          [⟨"1", "chore: miscellaneous changes", files⟩] ∧
        ∀ p, p ∈ files ↔ p ∈ inputPaths) := by
  refine ⟨?_, ?_, ?_⟩
  · intro p hp
    by_cases hr : ((draftFiles drafts).contains p) = true
    · exact foldl_repairStep_mono _ _ drafts p (by simpa [List.elem_iff] using hr)
    · exact mem_foldl_repairStep _ _ drafts p (mem_insertionDedup_of_mem hp)
        (by simpa using hr)
  · intro hd hin
    subst hd hin
    rfl
  · intro hd hin
    subst hd
    obtain ⟨x, xs, hxl⟩ : ∃ x xs, insertionDedup inputPaths = x :: xs := by
      cases hl : insertionDedup inputPaths with
      | nil =>
        exfalso
        cases inputPaths with
        | nil => exact hin rfl
        | cons y ys =>
          have : y ∈ insertionDedup (y :: ys) :=
            mem_insertionDedup_of_mem (List.mem_cons_self _ _)
          rw [hl] at this
          cases this
      | cons x xs => exact ⟨x, xs, rfl⟩
    refine ⟨x :: xs, ?_, ?_⟩
    · unfold repairDrafts
      rw [hxl]
      simp only [List.foldl_cons]
      have hstep : repairStep (draftFiles []) [] x = [fallbackDraft x] := by
        simp [repairStep, draftFiles, fallbackDraft]
      rw [hstep]
      have := foldl_repairStep_nil_singleton xs (fallbackDraft x)
      simp only [draftFiles, List.map_nil, List.flatten_nil] at *
      rw [this]
      rfl
    · intro p
      constructor
      · intro hp
        rw [← hxl] at hp
        rcases mem_of_foldl_dedupStep inputPaths [] p hp with h | h
        · cases h
        · exact h
      · intro hp
        rw [← hxl]
        exact mem_insertionDedup_of_mem hp

/-- Counterexample to C1 as stated: with input files `["a"]` and an
accepted reply whose single draft references only the extraneous path
`"x"`, the repaired DraftSet references `"x"` as well as `"a"`, so the
union of file paths across drafts is not exactly the input set; and an
accepted reply listing `"a"` in two drafts is returned unchanged, so a
file can appear in more than one draft. -/
theorem repairDrafts_coverage_counterexample :
    (¬ (∀ p, p ∈ draftFiles (repairDrafts ["a"] [⟨"1", "m", ["x"]⟩]) ↔
        p ∈ (["a"] : List String))) ∧
    repairDrafts ["a"] [⟨"1", "m", ["a"]⟩, ⟨"2", "n", ["a"]⟩] =
      [⟨"1", "m", ["a"]⟩, ⟨"2", "n", ["a"]⟩] := by
  constructor
  · intro h
    have hx := (h "x").mp (by decide)
    exact absurd hx (by decide)
  · decide

/-- Witness for C1 (amended) at concrete inputs: the omitted path `"a"`
is appended (last-draft case), and a zero-draft reply over input
`["a"]` yields exactly the synthesized fallback draft. -/
theorem repairDrafts_coverage_witness :
    "a" ∈ draftFiles (repairDrafts ["a", "b"] [⟨"1", "m", ["b"]⟩]) ∧
    (∃ files, repairDrafts ["a"] ([] : List ComposerDraftOutput) =
        [⟨"1", "chore: miscellaneous changes", files⟩] ∧
      ∀ p, p ∈ files ↔ p ∈ (["a"] : List String)) := by
  refine ⟨(repairDrafts_coverage ["a", "b"] [⟨"1", "m", ["b"]⟩]).1 "a" (by decide), ?_⟩
  exact (repairDrafts_coverage ["a"] []).2.2 rfl (by decide)

theorem mapGet_none_any_false {α : Type} (m : List (String × α)) (k : String)
    (h : mapGet m k = none) : m.any (fun e => e.1 == k) = false := by
  induction m with
  | nil => rfl
  | cons e rest ih =>
    by_cases hk : (e.1 == k) = true
    · simp [mapGet, hk] at h
    · simp only [mapGet, hk, if_false, Bool.false_eq_true, ite_false] at h
      simp [List.any_cons, hk, ih h]

/-- C4: on the spec's example — numstat `3 TAB 1 TAB a.ts`, name-status
`R100 TAB old.ts TAB a.ts` — the Change Extractor produces exactly one
record, for `a.ts`, with additions 3, deletions 1, status renamed; and
in general a rename classification entry updates the numeric entry
found by new path (keeping its counts), else the one found by old path,
and appends a zero-stat entry only when no numeric data exists for
either path. -/
theorem getChangedFilesWithStats_rename_merge :
    getChangedFilesWithStats "3\t1\ta.ts" "R100\told.ts\ta.ts" =
        [⟨"a.ts", 3, 1, FileStatus.renamed⟩] ∧
    (∀ (m : List (String × FileStats)) (newP oldP : String) (s : FileStats),
      (mapGet m newP = some s →
        mapGet (applyStatusEntry m .renamed newP (some oldP)) newP =
            some ⟨newP, s.additions, s.deletions, .renamed⟩ ∧
          (applyStatusEntry m .renamed newP (some oldP)).length = m.length) ∧
      (mapGet m newP = none → mapGet m oldP = some s →
        mapGet (applyStatusEntry m .renamed newP (some oldP)) oldP =
            some ⟨newP, s.additions, s.deletions, .renamed⟩ ∧
          (applyStatusEntry m .renamed newP (some oldP)).length = m.length) ∧
      (mapGet m newP = none → mapGet m oldP = none →
        applyStatusEntry m .renamed newP (some oldP) =
          m ++ [(newP, ⟨newP, 0, 0, .renamed⟩)])) := by
  constructor
  · decide
  · intro m newP oldP s
    refine ⟨?_, ?_, ?_⟩
    · intro hnew
      simp only [applyStatusEntry, hnew]
      exact ⟨mapGet_mapUpdateAt_self m newP _ s hnew, mapUpdateAt_length m newP _⟩
    · intro hnew hold
      simp only [applyStatusEntry, hnew, Option.getD_some]
      simp only [hold]
      exact ⟨mapGet_mapUpdateAt_self m oldP _ s hold, mapUpdateAt_length m oldP _⟩
    · intro hnew hold
      simp only [applyStatusEntry, hnew, Option.getD_some, hold]
      simp [mapSet, mapGet_none_any_false m newP hnew]

/-- Witness for C4's general part at a concrete map: a numeric entry
recorded under the new path `a.ts` is updated in place by the rename
entry. -/
theorem getChangedFilesWithStats_rename_merge_witness :
    mapGet (applyStatusEntry [("a.ts", ⟨"a.ts", 3, 1, FileStatus.modified⟩)]
        .renamed "a.ts" (some "old.ts")) "a.ts" =
      some ⟨"a.ts", 3, 1, FileStatus.renamed⟩ := by
  exact ((getChangedFilesWithStats_rename_merge.2
    [("a.ts", ⟨"a.ts", 3, 1, FileStatus.modified⟩)] "a.ts" "old.ts"
    ⟨"a.ts", 3, 1, FileStatus.modified⟩).1 (by decide)).1

/-- C5 (code evaluated at the failing input): for the untracked file
`f.ts` with the one-line content `hello`, the synthesized pseudo-diff
is exactly the unified-diff header plus one addition line per content
line — its own hunk header announces 1 added line — yet the recorded
change carries additions = 2, because the `+++ b/f.ts` header line is
also counted by the `startsWith("+")` filter; deletions and status
match the claim. -/
theorem untracked_additions_count_bug :
    createDiffForUntrackedLines "f.ts" "hello" =
        ["diff --git a/f.ts b/f.ts", "new file mode 100644", "--- /dev/null",
         "+++ b/f.ts", "@@ -0,0 +1,1 @@", "+hello"] ∧
    (strSplit "hello" '\n').length = 1 ∧
    (untrackedFileChange "f.ts" (createDiffForUntracked "f.ts" "hello")).additions = 2 ∧
    (untrackedFileChange "f.ts" (createDiffForUntracked "f.ts" "hello")).deletions = 0 ∧
    (untrackedFileChange "f.ts" (createDiffForUntracked "f.ts" "hello")).status =
      FileStatus.added := by
  decide

/-- Counterexample to C6 as stated: the reply `---TAB foo` contains no
`diff --git ` line and no `--- ` line at a line start, yet it passes
the source's structural check (`\s` also matches a tab) and is applied
as a patch. -/
theorem hasValidPatch_counterexample :
    claimedHeaderCheck "---\tfoo" = false ∧
    (handleDeslopReply "---\tfoo" true .accept).applied = true := by
  decide

/-- C6 (amended): a collaborator reply that is empty or fails the
structural check — no line starting with `diff --git ` and no line
start followed by `---` and a whitespace character (space, tab, or
line break) — is never applied as a patch and the flow returns the
continue result with no repository mutation; conversely, a reply is
applied only when it is non-empty and passes the check. -/
theorem deslop_gating (patch : String) (yes : Bool) (review : DeslopReview) :
    (hasValidPatch patch = false →
      handleDeslopReply patch yes review = ⟨false, .continueFlow⟩) ∧
    ((handleDeslopReply patch yes review).applied = true →
      patch ≠ "" ∧ hasValidPatch patch = true) := by
  constructor
  · intro h
    simp [handleDeslopReply, h]
  · intro h
    by_cases hc : patch ≠ "" ∧ hasValidPatch patch = true
    · exact hc
    · rw [handleDeslopReply.eq_def, if_neg hc] at h
      cases h

/-- Witness for C6 at a concrete reply with no diff header: not
applied, flow continues. -/
theorem deslop_gating_witness :
    handleDeslopReply "All clean, no changes needed." false .accept =
      ⟨false, .continueFlow⟩ := by
  exact (deslop_gating "All clean, no changes needed." false .accept).1 (by decide)

theorem mapGet_append {α : Type} (l₁ l₂ : List (String × α)) (p : String) :
    mapGet (l₁ ++ l₂) p = (mapGet l₁ p).orElse (fun _ => mapGet l₂ p) := by
  induction l₁ with
  | nil => simp [mapGet]
  | cons e rest ih =>
    by_cases hk : (e.1 == p) = true
    · simp [mapGet, hk]
    · simp [mapGet, hk, ih]

theorem mapGet_replaceAll_self (p : String) (c : String) :
    ∀ st : StagedState, (st.any fun e => e.1 == p) = true →
      mapGet (st.map (fun e => if e.1 == p then (p, c) else e)) p = some c := by
  intro st hany
  induction st with
  | nil => simp at hany
  | cons e rest ih =>
    by_cases hk : (e.1 == p) = true
    · simp [mapGet, hk]
    · simp only [List.any_cons, hk, Bool.false_or] at hany
      simp only [List.map_cons, hk, if_false, Bool.false_eq_true, ite_false]
      simp only [mapGet, hk, if_false, Bool.false_eq_true, ite_false]
      exact ih hany

theorem mapGet_replaceAll_other (p : String) (c : String) (q : String) (hq : q ≠ p) :
    ∀ st : StagedState,
      mapGet (st.map (fun e => if e.1 == p then (p, c) else e)) q = mapGet st q := by
  have hpq : (p == q) = false := by
    simp only [beq_eq_false_iff_ne, ne_eq]
    exact fun h => hq h.symm
  intro st
  induction st with
  | nil => rfl
  | cons e rest ih =>
    by_cases hk : (e.1 == p) = true
    · have hek : e.1 = p := by simpa using hk
      have heq : (e.1 == q) = false := by
        simp only [beq_eq_false_iff_ne, ne_eq, hek]
        exact fun h => hq h.symm
      simp only [List.map_cons, hk, if_true, mapGet, hpq, heq, if_false,
        Bool.false_eq_true, ite_false]
      exact ih
    · simp only [List.map_cons, hk, if_false, Bool.false_eq_true, ite_false, mapGet]
      by_cases he : (e.1 == q) = true
      · simp [he]
      · simp only [he, if_false, Bool.false_eq_true, ite_false]
        exact ih

theorem any_false_mapGet_none {α : Type} (p : String) :
    ∀ m : List (String × α), (m.any fun e => e.1 == p) = false → mapGet m p = none := by
  intro m hany
  induction m with
  | nil => rfl
  | cons e rest ih =>
    simp only [List.any_cons, Bool.or_eq_false_iff] at hany
    simp only [mapGet, hany.1, if_false, Bool.false_eq_true, ite_false]
    exact ih hany.2

theorem mapGet_removeAll_self (p : String) :
    ∀ st : StagedState, mapGet (st.filter (fun e => !(e.1 == p))) p = none := by
  intro st
  induction st with
  | nil => rfl
  | cons e rest ih =>
    by_cases hk : (e.1 == p) = true
    · simpa [List.filter_cons, hk] using ih
    · simpa [List.filter_cons, hk, mapGet] using ih

theorem mapGet_removeAll_other (p q : String) (hq : q ≠ p) :
    ∀ st : StagedState,
      mapGet (st.filter (fun e => !(e.1 == p))) q = mapGet st q := by
  intro st
  induction st with
  | nil => rfl
  | cons e rest ih =>
    by_cases hk : (e.1 == p) = true
    · have hek : e.1 = p := by simpa using hk
      have heq : (e.1 == q) = false := by
        simp only [beq_eq_false_iff_ne, ne_eq, hek]
        exact fun h => hq h.symm
      simpa [List.filter_cons, hk, mapGet, heq] using ih
    · simp only [List.filter_cons, hk, Bool.not_false, if_true, mapGet]
      by_cases he : (e.1 == q) = true
      · simp [he]
      · simp only [he, if_false, Bool.false_eq_true, ite_false]
        exact ih

theorem mapGet_setContent_self (st : StagedState) (p : String) (v : Option String) :
    mapGet (setContent st p v) p = v := by
  cases v with
  | some c =>
    simp only [setContent]
    by_cases hany : (st.any fun e => e.1 == p) = true
    · rw [if_pos hany]
      exact mapGet_replaceAll_self p c st hany
    · rw [if_neg hany, mapGet_append,
        any_false_mapGet_none p st (by
          simp only [Bool.not_eq_true] at hany
          exact hany)]
      simp [mapGet]
  | none =>
    simp only [setContent]
    exact mapGet_removeAll_self p st

theorem mapGet_setContent_other (st : StagedState) (p : String) (v : Option String)
    (q : String) (hq : q ≠ p) : mapGet (setContent st p v) q = mapGet st q := by
  have hpq : (p == q) = false := by
    simp only [beq_eq_false_iff_ne, ne_eq]
    exact fun h => hq h.symm
  cases v with
  | some c =>
    simp only [setContent]
    by_cases hany : (st.any fun e => e.1 == p) = true
    · rw [if_pos hany]
      exact mapGet_replaceAll_other p c q hq st
    · rw [if_neg hany, mapGet_append]
      cases hg : mapGet st q with
      | some w => simp [hg]
      | none => simp [hg, mapGet, hpq]
  | none =>
    simp only [setContent]
    exact mapGet_removeAll_other p q hq st

theorem applyPatchModel_frame (reverse : Bool) (P : List PatchEntry) :
    ∀ (st st' : StagedState), applyPatchModel reverse P st = some st' →
      ∀ q, (∀ e ∈ P, q ≠ e.path) → mapGet st' q = mapGet st q := by
  induction P with
  | nil =>
    intro st st' h q _
    simp only [applyPatchModel, Option.some.injEq] at h
    rw [h]
  | cons e rest ih =>
    intro st st' h q hq
    simp only [applyPatchModel] at h
    cases happ : applyEntry reverse st e with
    | none => rw [happ] at h; cases h
    | some st1 =>
      rw [happ] at h
      have hq1 : mapGet st1 q = mapGet st q := by
        simp only [applyEntry] at happ
        split at happ
        · injection happ with happ'
          rw [← happ']
          exact mapGet_setContent_other st e.path _ q (hq e (List.mem_cons_self _ _))
        · cases happ
      rw [ih st1 st' h q (fun e' he' => hq e' (List.mem_cons_of_mem _ he')), hq1]

theorem applyPatchModel_reverse_general (P : List PatchEntry) :
    ∀ (st s t : StagedState),
      (P.map (·.path)).Nodup →
      applyPatchModel false P st = some s →
      (∀ q, (∃ e ∈ P, q = e.path) → mapGet t q = mapGet s q) →
      ∃ t', applyPatchModel true P t = some t' ∧
        (∀ q, (∃ e ∈ P, q = e.path) → mapGet t' q = mapGet st q) ∧
        (∀ q, (∀ e ∈ P, q ≠ e.path) → mapGet t' q = mapGet t q) := by
  induction P with
  | nil =>
    intro st s t _ hfwd _
    refine ⟨t, rfl, ?_, fun q _ => rfl⟩
    intro q hq
    obtain ⟨e, he, _⟩ := hq
    cases he
  | cons e rest ih =>
    intro st s t hnodup hfwd hagree
    rw [List.map_cons, List.nodup_cons] at hnodup
    obtain ⟨hnd1, hnd2⟩ := hnodup
    simp only [applyPatchModel] at hfwd
    cases happ : applyEntry false st e with
    | none => rw [happ] at hfwd; cases hfwd
    | some st1 =>
      rw [happ] at hfwd
      have hcheck : mapGet st e.path = e.preContent ∧
          st1 = setContent st e.path e.postContent := by
        simp only [applyEntry, Bool.cond_false] at happ
        split at happ
        · next hck =>
          injection happ with happ'
          exact ⟨hck, happ'.symm⟩
        · cases happ
      have hs_epath : mapGet s e.path = e.postContent := by
        have hframe := applyPatchModel_frame false rest st1 s hfwd e.path
          (by
            intro e' he' heq
            exact hnd1 (heq ▸ List.mem_map_of_mem (·.path) he'))
        rw [hframe, hcheck.2, mapGet_setContent_self]
      have ht_epath : mapGet t e.path = e.postContent := by
        rw [hagree e.path ⟨e, List.mem_cons_self _ _, rfl⟩, hs_epath]
      have happrev : applyEntry true t e = some (setContent t e.path e.preContent) := by
        simp only [applyEntry, Bool.cond_true]
        rw [if_pos ht_epath]
      have hagree' : ∀ q, (∃ e' ∈ rest, q = e'.path) →
          mapGet (setContent t e.path e.preContent) q = mapGet s q := by
        intro q hq
        obtain ⟨e', he', rfl⟩ := hq
        have hqe : e'.path ≠ e.path := by
          intro hcontra
          exact hnd1 (hcontra ▸ List.mem_map_of_mem (·.path) he')
        rw [mapGet_setContent_other t e.path _ e'.path hqe]
        exact hagree e'.path ⟨e', List.mem_cons_of_mem _ he', rfl⟩
      obtain ⟨t', ht'run, ht'on, ht'off⟩ :=
        ih st1 s (setContent t e.path e.preContent) hnd2 hfwd hagree'
      refine ⟨t', ?_, ?_, ?_⟩
      · simp only [applyPatchModel, happrev]
        exact ht'run
      · intro q hq
        obtain ⟨e', he', rfl⟩ := hq
        rcases List.mem_cons.mp he' with rfl | hrest
        · have hoff : ∀ e'' ∈ rest, e'.path ≠ e''.path := by
            intro e'' he'' heq
            exact hnd1 (heq ▸ List.mem_map_of_mem (·.path) he'')
          rw [ht'off e'.path hoff, mapGet_setContent_self, hcheck.1]
        · have hqe : e'.path ≠ e.path := by
            intro hcontra
            exact hnd1 (hcontra ▸ List.mem_map_of_mem (·.path) hrest)
          rw [ht'on e'.path ⟨e', hrest, rfl⟩, hcheck.2,
            mapGet_setContent_other st e.path _ e'.path hqe]
      · intro q hq
        have hq' : ∀ e' ∈ rest, q ≠ e'.path :=
          fun e' he' => hq e' (List.mem_cons_of_mem _ he')
        rw [ht'off q hq', mapGet_setContent_other t e.path _ q
          (hq e (List.mem_cons_self _ _))]

/-- C7: for every patch that applies successfully (index-aware), a
reverse application of the same patch succeeds and restores the
pre-apply staged contents exactly — every file's staged content after
apply-then-revert equals its content before the apply, so the staged
diff is restored byte-for-byte. -/
theorem patch_round_trip (P : List PatchEntry) (st s : StagedState)
    (hnodup : (P.map (·.path)).Nodup)
    (happly : applyPatchModel false P st = some s) :
    ∃ s', applyPatchModel true P s = some s' ∧ ∀ q, mapGet s' q = mapGet st q := by
  obtain ⟨s', hrun, hon, hoff⟩ :=
    applyPatchModel_reverse_general P st s s hnodup happly (fun q _ => rfl)
  refine ⟨s', hrun, ?_⟩
  intro q
  by_cases hq : ∃ e ∈ P, q = e.path
  · exact hon q hq
  · push_neg at hq
    rw [hoff q hq]
    exact applyPatchModel_frame false P st s happly q hq

/-- C9: the edit-message operation changes at most the message of the
selected draft — a cancelled selection, a cancelled entry, or a blank
entry returns the DraftSet entirely unchanged, and a non-blank entry
leaves the length, every other draft, and the selected draft's id and
file membership unchanged, replacing only its message. -/
theorem editDraftMessage_frame (drafts : List DraftCommit) (sel : Option Nat)
    (entry : Option String) :
    (sel = none → editDraftMessage drafts sel entry = drafts) ∧
    (∀ i, sel = some i → entry = none → editDraftMessage drafts sel entry = drafts) ∧
    (∀ i msg, sel = some i → entry = some msg → strTrim msg = "" →
      editDraftMessage drafts sel entry = drafts) ∧
    (∀ i msg, sel = some i → entry = some msg → strTrim msg ≠ "" →
      ∀ h : i < drafts.length,
        (editDraftMessage drafts sel entry).length = drafts.length ∧
        (∀ j, j ≠ i → (editDraftMessage drafts sel entry)[j]? = drafts[j]?) ∧
        (editDraftMessage drafts sel entry)[i]? =
          some ⟨(drafts.get ⟨i, h⟩).id, msg, (drafts.get ⟨i, h⟩).files⟩) := by
  refine ⟨?_, ?_, ?_, ?_⟩
  · intro h
    rw [h]
    simp only [editDraftMessage]
  · intro i hs he
    rw [hs, he]
    simp only [editDraftMessage]
  · intro i msg hs he hm
    rw [hs, he]
    simp [editDraftMessage, hm]
  · intro i msg hs he hm h
    rw [hs, he]
    simp only [editDraftMessage]
    rw [dif_pos h, if_neg hm]
    refine ⟨by simp, ?_, ?_⟩
    · intro j hj
      exact List.getElem?_set_ne (Ne.symm hj)
    · rw [List.getElem?_set_self h]

/-- Witness for C9 at a concrete two-draft set: editing draft 0's
message keeps the length, leaves draft 1 untouched, and changes only
draft 0's message. -/
theorem editDraftMessage_frame_witness :
    (editDraftMessage [draftX, draftY] (some 0) (some "fix: better message")).length
        = 2 ∧
    (editDraftMessage [draftX, draftY] (some 0) (some "fix: better message"))[1]? =
      some draftY ∧
    (editDraftMessage [draftX, draftY] (some 0) (some "fix: better message"))[0]? =
      some ⟨"1", "fix: better message", [fileX]⟩ := by
  have h := (editDraftMessage_frame [draftX, draftY] (some 0)
      (some "fix: better message")).2.2.2 0 "fix: better message" rfl rfl
      (by decide) (by decide)
  exact ⟨h.1, h.2.1 1 (by decide), h.2.2⟩

/-- Witness for C7 at a concrete patch rewriting `a.ts` from `old` to
`new`: the forward application succeeds, and the reverse application
restores the staged content `old`. -/
theorem patch_round_trip_witness :
    applyPatchModel false [⟨"a.ts", some "old", some "new"⟩] [("a.ts", "old")] =
        some [("a.ts", "new")] ∧
    ∃ s', applyPatchModel true [⟨"a.ts", some "old", some "new"⟩] [("a.ts", "new")] =
        some s' ∧ mapGet s' "a.ts" = some "old" := by
  refine ⟨by decide, ?_⟩
  obtain ⟨s', h1, h2⟩ := patch_round_trip [⟨"a.ts", some "old", some "new"⟩]
    [("a.ts", "old")] [("a.ts", "new")] (by decide) (by decide)
  refine ⟨s', h1, ?_⟩
  rw [h2 "a.ts"]
  decide

end Ocmt
